import Mathlib

/-!
Verification of the BitFieldArray library: a shallow embedding of the
`BitField` / `BitFieldArray` Python classes, together with theorems about
assignment, export/decode and their round trips.

Conventions of the embedding:
  - Python integers on the value side are non-negative throughout the data
    model (`value` is an optional non-negative integer), so machine values
    are `Nat` and bit operations are `Nat` operations.
  - The mutable array is a `List BitField`; each method becomes a function
    from the array to the updated array (methods that `return self` return
    the updated list).
  - `int.to_bytes` can raise `OverflowError`, so its embedding returns an
    `Option`; the other operations used here are total.
-/

namespace BFA

/-- Byte order argument of `export_as_bytes` / `from_bytes` (the two
recognized values of the Python `order` string). -/
inductive ByteOrder where
  | little
  | big
  deriving DecidableEq

/-- Embedding of the `BitField` class: an optional stored value together
with the slot's declared bit width (`max_bits`). -/
structure BitField where
  value : Option Nat
  max_bits : Nat
  deriving DecidableEq

namespace BitField

/-- Embedding of `BitField.mask`: `value & ((1 << bits) - 1)`. -/
def mask (value : Nat) (bits : Nat) : Nat :=
  value &&& ((1 <<< bits) - 1)

/-- Embedding of `BitField.assign` (through the `value` setter, which
masks): stores `mask value max_bits`, overwriting any prior value. -/
def assign (b : BitField) (v : Nat) : BitField :=
  { b with value := some (mask v b.max_bits) }

/-- Embedding of the `BitField.is_null` property: the slot is empty iff no
value is stored. -/
def is_null (b : BitField) : Bool :=
  b.value.isNone

end BitField

/-- Embedding of `BitFieldArray.__init__`: one empty slot per width, in
order.  The constructor performs no validation of the widths or of the
length of the list. -/
def mk (fields : List Nat) : List BitField :=
  fields.map (fun w => { value := none, max_bits := w })

/-- Embedding of the scalar branch of `BitFieldArray.assign`: the first
empty slot receives the (masked) value; when no empty slot exists the
value goes to the module-level zero-width sentinel, leaving the array
unchanged. -/
def assignScalar : List BitField → Nat → List BitField
  | [], _ => []
  | b :: bs, v => if b.is_null then b.assign v :: bs else b :: assignScalar bs v

/-- Embedding of the iterable branch of `BitFieldArray.assign`:
`zip(values, generator_of_empty_slots)` pairs the k-th supplied value with
the k-th currently-empty slot, stopping when either side is exhausted. -/
def assignList : List BitField → List Nat → List BitField
  | [], _ => []
  | b :: bs, vs =>
    if b.is_null then
      match vs with
      | [] => b :: bs
      | v :: tl => b.assign v :: assignList bs tl
    else b :: assignList bs vs

/-- Embedding of the loop of `BitFieldArray.export`: accumulator `n`,
shift counter `pushed`; the loop breaks at the first empty slot. -/
def exportAux : List BitField → Nat → Nat → Nat
  | [], n, _ => n
  | b :: bs, n, pushed =>
    match b.value with
    | none => n
    | some v => exportAux bs (n ||| (v <<< pushed)) (pushed + b.max_bits)

/-- Embedding of `BitFieldArray.export` (named `exportInt` because
`export` is a Lean keyword). -/
def exportInt (a : List BitField) : Nat :=
  exportAux a 0 0

/-- Helper for `bit_length`: counts binary digits, with structural fuel
(any fuel at least `n` gives the digit count of `n`). -/
def bitLenAux : Nat → Nat → Nat
  | 0, _ => 0
  | fuel + 1, n => if n = 0 then 0 else bitLenAux fuel (n / 2) + 1

/-- Embedding of Python `int.bit_length()`: the number of binary digits
of `n`, with `bit_length 0 = 0`.  (Characterized below by
`bit_length_zero`, `lt_two_pow_bit_length` and `two_pow_bit_length_le`.) -/
def bit_length (n : Nat) : Nat :=
  bitLenAux n n

/-- Little-endian byte list of `v`, padded or truncated to `len` bytes
(the truncation case never arises under the guard of `to_bytes`). -/
def toBytesLE : Nat → Nat → List Nat
  | _, 0 => []
  | v, len + 1 => (v % 256) :: toBytesLE (v / 256) len

/-- Embedding of Python `int.to_bytes(len, order)`: fails (raises
`OverflowError`) when the value does not fit in `len` bytes. -/
def to_bytes (v : Nat) (len : Nat) (order : ByteOrder) : Option (List Nat) :=
  if v < 256 ^ len then
    some (match order with
      | ByteOrder.little => toBytesLE v len
      | ByteOrder.big => (toBytesLE v len).reverse)
  else none

/-- Embedding of `BitFieldArray.export_as_bytes`:
`export().to_bytes((bit_length + 7) // 8, order)`. -/
def export_as_bytes (a : List BitField) (order : ByteOrder) : Option (List Nat) :=
  to_bytes (exportInt a) ((bit_length (exportInt a) + 7) / 8) order

/-- Embedding of `BitFieldArray.to_list`: the list of the slots' optional
values, in slot order. -/
def to_list (a : List BitField) : List (Option Nat) :=
  a.map (fun b => b.value)

/-- Embedding of the candidate-building loop of `BitFieldArray.from_int`:
for each slot in order, `value & ((1 << max_bits) - 1)` is recorded and
`value` is shifted right by `max_bits`. -/
def fromIntData : List BitField → Nat → List Nat
  | [], _ => []
  | b :: bs, v => (v &&& ((1 <<< b.max_bits) - 1)) :: fromIntData bs (v >>> b.max_bits)

/-- Embedding of `BitFieldArray.from_int`: builds the candidate list and
hands it to the iterable branch of `assign`. -/
def from_int (a : List BitField) (v : Nat) : List BitField :=
  assignList a (fromIntData a v)

/-- Value of a little-endian byte list. -/
def fromBytesLE : List Nat → Nat
  | [] => 0
  | b :: tl => b + 256 * fromBytesLE tl

/-- Embedding of Python `int.from_bytes(bytes, order)`. -/
def intFromBytes (bs : List Nat) : ByteOrder → Nat
  | ByteOrder.little => fromBytesLE bs
  | ByteOrder.big => fromBytesLE bs.reverse

/-- Embedding of `BitFieldArray.from_bytes`: converts the bytes to an
integer for the given order and delegates to `from_int`. -/
def from_bytes (a : List BitField) (bs : List Nat) (order : ByteOrder) : List BitField :=
  from_int a (intFromBytes bs order)

/-- Embedding of `BitFieldArray.delete`, i.e. of Python
`del self.data[index]`: a negative index is taken from the end; an index
out of range (after normalization) raises `IndexError`, modelled as
`none`. -/
def delete (a : List BitField) (index : Int) : Option (List BitField) :=
  let j : Int := if index < 0 then index + (a.length : Int) else index
  if 0 ≤ j ∧ j < (a.length : Int) then some (a.eraseIdx j.toNat) else none

/-- Slot of the `BitFieldArray` constructor with the width kept as a raw
(possibly negative) integer, exactly as `BitField.__init__` stores it:
no range check happens at construction time. -/
structure BitFieldZ where
  value : Option Nat
  max_bits : Int
  deriving DecidableEq

/-- Embedding of `BitFieldArray.__init__` over raw integer widths: the
constructor is a plain `map`, with no validation of sign or emptiness. -/
def mkZ (fields : List Int) : List BitFieldZ :=
  fields.map (fun w => { value := none, max_bits := w })

/-- Operations available on an array after construction, for stating
invariants over arbitrary operation sequences. -/
inductive Op where
  | assignOne : Nat → Op
  | assignMany : List Nat → Op
  | fromIntOp : Nat → Op
  | fromBytesOp : List Nat → ByteOrder → Op
  | deleteOp : Int → Op

/-- Applies one operation to the array (a failing `delete` leaves the
array unchanged, as the raised exception aborts before any mutation). -/
def applyOp (a : List BitField) : Op → List BitField
  | Op.assignOne v => assignScalar a v
  | Op.assignMany vs => assignList a vs
  | Op.fromIntOp v => from_int a v
  | Op.fromBytesOp bs o => from_bytes a bs o
  | Op.deleteOp i => (delete a i).getD a

/-- Invariant: every stored value fits in its slot's declared width. -/
def invariantHolds (a : List BitField) : Prop :=
  ∀ b ∈ a, ∀ v, b.value = some v → v < 2 ^ b.max_bits

/-- Number of empty slots strictly before index `i`. -/
def countEmptyBefore (a : List BitField) (i : Nat) : Nat :=
  (a.take i).countP (fun b => b.is_null)

/-- Total width of the slots strictly before index `i`. -/
def prefWidth (a : List BitField) (i : Nat) : Nat :=
  ((a.take i).map (fun b => b.max_bits)).sum

/-- Fully-assigned array with the given widths and (already in-range)
values, the shape produced by bulk assignment into a fresh array. -/
def filled (ws vs : List Nat) : List BitField :=
  List.zipWith (fun w v => { value := some v, max_bits := w }) ws vs

/-- Packed value of widths `ws` and values `vs`, least-significant slot
first. -/
def packLE : List Nat → List Nat → Nat
  | _, [] => 0
  | [], _ => 0
  | w :: ws, v :: vs => v + 2 ^ w * packLE ws vs

/-- Positional decoding of `e` along the width list `ws`. -/
def decodeLE : List Nat → Nat → List Nat
  | [], _ => []
  | w :: ws, e => (e &&& ((1 <<< w) - 1)) :: decodeLE ws (e >>> w)

/-- Positional reading of the claim that `from_int` assigns each empty
slot its own positionally-extracted candidate (the candidate computed at
that slot's index), leaving filled slots alone. -/
def from_int_positional : List BitField → Nat → List BitField
  | [], _ => []
  | b :: bs, v =>
    (if b.is_null then b.assign (v &&& ((1 <<< b.max_bits) - 1)) else b) ::
      from_int_positional bs (v >>> b.max_bits)

/-! ### Basic lemmas about masking and export -/

theorem mask_eq_mod (v bits : Nat) : BitField.mask v bits = v % 2 ^ bits := by
  simp [BitField.mask, Nat.one_shiftLeft]

theorem mask_lt (v bits : Nat) : BitField.mask v bits < 2 ^ bits := by
  rw [mask_eq_mod]
  exact Nat.mod_lt _ (Nat.pos_pow_of_pos _ (by decide))

theorem or_shiftLeft (x y p : Nat) : (x ||| y) <<< p = (x <<< p) ||| (y <<< p) := by
  apply Nat.eq_of_testBit_eq
  intro j
  simp [Nat.testBit_shiftLeft, Nat.testBit_or, Bool.and_or_distrib_left]

theorem exportAux_eq_or (bs : List BitField) :
    ∀ n p : Nat, exportAux bs n p = n ||| (exportInt bs <<< p) := by
  induction bs with
  | nil => intro n p; simp [exportAux, exportInt]
  | cons b bs ih =>
    intro n p
    cases h : b.value with
    | none => simp [exportAux, exportInt, h]
    | some v =>
      have h1 : exportInt (b :: bs) = v ||| (exportInt bs <<< b.max_bits) := by
        simp only [exportInt, exportAux, h]
        rw [ih]
        simp [exportInt]
      simp only [exportAux, h]
      rw [ih, h1, or_shiftLeft, ← Nat.shiftLeft_add, Nat.or_assoc, Nat.add_comm p b.max_bits]

theorem exportInt_cons_some (w v : Nat) (bs : List BitField) :
    exportInt ({ value := some v, max_bits := w } :: bs) = v ||| (exportInt bs <<< w) := by
  simp only [exportInt, exportAux]
  rw [exportAux_eq_or]
  simp [exportInt]

theorem exportAux_takeWhile (a : List BitField) :
    ∀ n p : Nat,
      exportAux (a.takeWhile fun b => !b.is_null) n p = exportAux a n p := by
  induction a with
  | nil => intro n p; rfl
  | cons b bs ih =>
    intro n p
    cases h : b.value with
    | none => simp [List.takeWhile, BitField.is_null, h, exportAux]
    | some v =>
      have hp : (fun b : BitField => !b.is_null) b = true := by
        simp [BitField.is_null, h]
      rw [@List.takeWhile_cons_of_pos _ (fun b : BitField => !b.is_null) b bs hp]
      simp only [exportAux, h]
      exact ih _ _

/-! ### C3: export accumulates over the filled prefix only -/

/-- C3: `export()` accumulates `result |= value << cumulative_bits` over
slots in order and stops at the first empty slot: the result only depends
on the prefix of non-empty slots, an array whose first slot is empty
(in particular an empty array) exports `0`, and a non-empty first slot
contributes `value ||| (rest <<< max_bits)`. -/
theorem C3_export_contiguity (a : List BitField) :
    exportInt a = exportInt (a.takeWhile fun b => !b.is_null) ∧
    exportInt ([] : List BitField) = 0 ∧
    (∀ (w : Nat) (bs : List BitField),
      exportInt ({ value := none, max_bits := w } :: bs) = 0) ∧
    (∀ (w v : Nat) (bs : List BitField),
      exportInt ({ value := some v, max_bits := w } :: bs) =
        v ||| (exportInt bs <<< w)) := by
  refine ⟨(exportAux_takeWhile a 0 0).symm, rfl, fun w bs => rfl, fun w v bs => ?_⟩
  exact exportInt_cons_some w v bs

/-! ### C6: scalar assignment into a full array is a no-op -/

/-- C6: when no slot of the array is empty, the scalar branch of `assign`
changes nothing (the value is discarded into the zero-width sentinel):
values, widths and slot count are all unchanged and the array itself is
the result. -/
theorem C6_full_scalar_assign_noop (a : List BitField) (v : Nat)
    (h : ∀ b ∈ a, b.is_null = false) : assignScalar a v = a := by
  induction a with
  | nil => rfl
  | cons b bs ih =>
    have hb : b.is_null = false := h b (List.mem_cons_self b bs)
    simp [assignScalar, hb, ih (fun x hx => h x (List.mem_cons_of_mem b hx))]

theorem C6_full_scalar_assign_noop_witness :
    assignScalar [{ value := some 1, max_bits := 3 }] 9 =
      [{ value := some 1, max_bits := 3 }] :=
  C6_full_scalar_assign_noop _ 9 (by decide)

/-! ### C4: construction performs no validation -/

/-- C4 (counterexample): contrary to the claim that a zero-length width
list or a negative width fails at construction time, the constructor has
no validation at all: the empty width list yields a usable array (its
export is `0` and its list form is empty), and a negative width is stored
as given. -/
theorem C4_counterexample :
    mk [] = [] ∧ exportInt (mk []) = 0 ∧ to_list (mk []) = [] ∧
    mkZ [(-3 : Int)] = [{ value := none, max_bits := (-3 : Int) }] := by
  decide

/-- C4 (amended): construction never fails: for every raw width list,
including the empty list and lists with negative entries, the constructor
returns one empty slot per width in order; the zero-length array is
usable (it exports `0` and scalar assignment on it is a no-op). -/
theorem C4_construction_no_validation :
    (∀ fields : List Int, (mkZ fields).length = fields.length ∧
      ∀ i : Nat, (mkZ fields)[i]? =
        (fields[i]?).map (fun w => { value := none, max_bits := w })) ∧
    exportInt (mk []) = 0 ∧ assignScalar (mk []) 5 = mk [] := by
  refine ⟨fun fields => ⟨by simp [mkZ], fun i => ?_⟩, rfl, rfl⟩
  simp [mkZ]

/-! ### C10: delete accepts negative indices, Python style -/

/-- C10: for `-n ≤ i < 0`, `delete(i)` succeeds and removes the slot at
position `n + i`, shifting the subsequent slots left by one. -/
theorem C10_delete_negative_index (a : List BitField) (i : Int)
    (h1 : -(a.length : Int) ≤ i) (h2 : i < 0) :
    delete a i =
      some (a.take ((a.length : Int) + i).toNat ++
        a.drop (((a.length : Int) + i).toNat + 1)) := by
  have hcond : (0 : Int) ≤ i + (a.length : Int) ∧ i + (a.length : Int) < (a.length : Int) := by
    omega
  simp only [delete, if_pos h2, if_pos hcond]
  rw [List.eraseIdx_eq_take_drop_succ]
  have : (i + (a.length : Int)).toNat = ((a.length : Int) + i).toNat := by omega
  rw [this]

theorem C10_delete_negative_index_witness :
    delete (mk [3, 7]) (-1) =
      some ((mk [3, 7]).take (((mk [3, 7]).length : Int) + -1).toNat ++
        (mk [3, 7]).drop ((((mk [3, 7]).length : Int) + -1).toNat + 1)) :=
  C10_delete_negative_index (mk [3, 7]) (-1) (by decide) (by decide)

/-! ### Characterization of bulk assignment -/

theorem assignList_length (a : List BitField) :
    ∀ vs : List Nat, (assignList a vs).length = a.length := by
  induction a with
  | nil => intro vs; rfl
  | cons b bs ih =>
    intro vs
    cases hb : b.is_null with
    | false => simp [assignList, hb, ih]
    | true =>
      cases vs with
      | nil => simp [assignList, hb]
      | cons v tl => simp [assignList, hb, ih]

theorem countEmptyBefore_zero (a : List BitField) : countEmptyBefore a 0 = 0 := by
  simp [countEmptyBefore]

theorem countEmptyBefore_cons_succ (b : BitField) (bs : List BitField) (i : Nat) :
    countEmptyBefore (b :: bs) (i + 1) =
      countEmptyBefore bs i + (if b.is_null then 1 else 0) := by
  simp [countEmptyBefore, List.countP_cons]

theorem countEmptyBefore_le (a : List BitField) (i : Nat) :
    countEmptyBefore a i ≤ i := by
  calc countEmptyBefore a i ≤ (a.take i).length := List.countP_le_length _
  _ ≤ i := by simp [List.length_take]

theorem assignList_getElem_any (a : List BitField) :
    ∀ (vs : List Nat) (i : Nat),
      (assignList a vs)[i]? = (a[i]?).map (fun b =>
        if b.is_null = true ∧ countEmptyBefore a i < vs.length
        then b.assign (vs.getD (countEmptyBefore a i) 0) else b) := by
  induction a with
  | nil => intro vs i; simp [assignList]
  | cons b bs ih =>
    intro vs i
    cases hb : b.is_null with
    | false =>
      cases i with
      | zero => simp [assignList, hb, countEmptyBefore_zero]
      | succ j =>
        have hc : countEmptyBefore (b :: bs) (j + 1) = countEmptyBefore bs j := by
          simp [countEmptyBefore_cons_succ, hb]
        simp [assignList, hb, hc, ih]
    | true =>
      have hc : ∀ j : Nat, countEmptyBefore (b :: bs) (j + 1) =
          countEmptyBefore bs j + 1 := by
        intro j; simp [countEmptyBefore_cons_succ, hb]
      cases vs with
      | nil =>
        cases i with
        | zero => simp [assignList, hb, countEmptyBefore_zero]
        | succ j =>
          cases hx : bs[j]? <;>
            simp [assignList, hb, hc, hx]
      | cons v tl =>
        cases i with
        | zero => simp [assignList, hb, countEmptyBefore_zero]
        | succ j =>
          simp [assignList, hb, hc, ih, Nat.succ_lt_succ_iff]

/-- C7: the iterable branch of `assign` pairs the k-th supplied value
with the k-th slot that is empty at call time (left to right), masking it
into that slot, and stops when either side runs out: at each index, an
empty slot whose empty-rank is below the number of supplied values gets
the value of that rank, and every other slot — already filled, or empty
with too high a rank — is left untouched; the slot count is unchanged. -/
theorem C7_bulk_assign_pairs_empties (a : List BitField) (vs : List Nat) :
    (assignList a vs).length = a.length ∧
    ∀ i : Nat, (assignList a vs)[i]? = (a[i]?).map (fun b =>
      if b.is_null = true ∧ countEmptyBefore a i < vs.length
      then b.assign (vs.getD (countEmptyBefore a i) 0) else b) :=
  ⟨assignList_length a vs, fun i => assignList_getElem_any a vs i⟩

/-! ### C1: what from_int really does -/

theorem fromIntData_length (a : List BitField) :
    ∀ v : Nat, (fromIntData a v).length = a.length := by
  induction a with
  | nil => intro v; rfl
  | cons b bs ih => intro v; simp [fromIntData, ih]

theorem prefWidth_succ_cons (b : BitField) (bs : List BitField) (i : Nat) :
    prefWidth (b :: bs) (i + 1) = b.max_bits + prefWidth bs i := by
  simp [prefWidth]

theorem fromIntData_getElem_any (a : List BitField) :
    ∀ (v : Nat) (i : Nat),
      (fromIntData a v)[i]? = (a[i]?).map (fun b =>
        (v >>> prefWidth a i) &&& ((1 <<< b.max_bits) - 1)) := by
  induction a with
  | nil => intro v i; simp [fromIntData]
  | cons b bs ih =>
    intro v i
    cases i with
    | zero => simp [fromIntData, prefWidth]
    | succ j => simp [fromIntData, prefWidth_succ_cons, ih, Nat.shiftRight_add]

/-- C1 (counterexample): on widths `[1, 1]` with the first slot already
holding `1`, `from_int(2)` computes the candidates `[0, 1]` and assigns
them through the bulk path, so the (only) empty slot — slot 1 — receives
candidate 0, i.e. the value `0`; the claim's positional reading (slot 1
receives its own candidate `1`, as `from_int_positional` does) predicts
`[1, 1]` instead of the actual `[1, 0]`. -/
theorem C1_counterexample :
    to_list (from_int (assignScalar (mk [1, 1]) 1) 2) = [some 1, some 0] ∧
    to_list (from_int_positional (assignScalar (mk [1, 1]) 1) 2) =
      [some 1, some 1] := by
  decide

/-- C1 (amended): `from_int(value)` computes for each slot, in order, the
positional candidate `(value >>> total width of preceding slots) &&&
((1 <<< max_bits) - 1)` and hands the whole candidate list to the bulk
assign path: slots already holding a value are left untouched, and the
k-th currently-empty slot (left to right) receives the k-th candidate —
the candidate computed at slot position k, not the one computed at that
empty slot's own position; slot count (and each slot's width) is
unchanged. -/
theorem C1_from_int_decode (a : List BitField) (v : Nat) :
    (from_int a v).length = a.length ∧
    (∀ i : Nat, (fromIntData a v)[i]? = (a[i]?).map (fun b =>
      (v >>> prefWidth a i) &&& ((1 <<< b.max_bits) - 1))) ∧
    (∀ i : Nat, (from_int a v)[i]? = (a[i]?).map (fun b =>
      if b.is_null = true
      then b.assign ((fromIntData a v).getD (countEmptyBefore a i) 0)
      else b)) := by
  refine ⟨assignList_length a _, fun i => fromIntData_getElem_any a v i, fun i => ?_⟩
  rw [from_int, assignList_getElem_any a (fromIntData a v) i]
  cases hx : a[i]? with
  | none => rfl
  | some b =>
    have hi : i < a.length := by
      by_contra hge
      rw [List.getElem?_eq_none (Nat.le_of_not_lt hge)] at hx
      exact Option.noConfusion hx
    have hlt : countEmptyBefore a i < (fromIntData a v).length := by
      rw [fromIntData_length]
      exact Nat.lt_of_le_of_lt (countEmptyBefore_le a i) hi
    simp [hlt]

/-! ### Round trip through the packed integer -/

theorem mk_cons (w : Nat) (ws : List Nat) :
    mk (w :: ws) = { value := none, max_bits := w } :: mk ws :=
  rfl

theorem assignList_mk_eq_filled :
    ∀ {ws vs : List Nat}, List.Forall₂ (fun w v => v < 2 ^ w) ws vs →
      assignList (mk ws) vs = filled ws vs := by
  intro ws vs h
  induction h with
  | nil => rfl
  | @cons w v ws vs hwv htl ih =>
    have h1 : assignList (mk (w :: ws)) (v :: vs) =
        BitField.assign { value := none, max_bits := w } v ::
          assignList (mk ws) vs := rfl
    have h2 : filled (w :: ws) (v :: vs) =
        { value := some v, max_bits := w } :: filled ws vs := rfl
    rw [h1, h2, ih]
    congr 1
    simp [BitField.assign, mask_eq_mod, Nat.mod_eq_of_lt hwv]

theorem exportAux_filled :
    ∀ {ws vs : List Nat}, List.Forall₂ (fun w v => v < 2 ^ w) ws vs →
      ∀ n p : Nat, n < 2 ^ p →
        exportAux (filled ws vs) n p = n + packLE ws vs * 2 ^ p := by
  intro ws vs h
  induction h with
  | nil => intro n p hn; simp [filled, exportAux, packLE]
  | @cons w v ws vs hwv htl ih =>
    intro n p hn
    have hor : n ||| v <<< p = n + v * 2 ^ p := by
      have hmul := Nat.mul_add_lt_is_or hn v
      rw [Nat.shiftLeft_eq, Nat.or_comm, Nat.mul_comm v (2 ^ p), ← hmul]
      omega
    have hb : n + v * 2 ^ p < 2 ^ (p + w) := by
      calc n + v * 2 ^ p < 2 ^ p + v * 2 ^ p := Nat.add_lt_add_right hn _
      _ = (v + 1) * 2 ^ p := by ring
      _ ≤ 2 ^ w * 2 ^ p := Nat.mul_le_mul_right _ hwv
      _ = 2 ^ (p + w) := by rw [← pow_add, Nat.add_comm]
    calc exportAux (filled (w :: ws) (v :: vs)) n p
        = exportAux (filled ws vs) (n ||| v <<< p) (p + w) := by
          simp [filled, exportAux]
      _ = (n + v * 2 ^ p) + packLE ws vs * 2 ^ (p + w) := by
          rw [hor]; exact ih _ _ hb
      _ = n + packLE (w :: ws) (v :: vs) * 2 ^ p := by
          simp [packLE, pow_add]; ring

theorem exportInt_filled {ws vs : List Nat}
    (h : List.Forall₂ (fun w v => v < 2 ^ w) ws vs) :
    exportInt (filled ws vs) = packLE ws vs := by
  have := exportAux_filled h 0 0 (by decide)
  simpa [exportInt] using this

theorem decodeLE_pack :
    ∀ {ws vs : List Nat}, List.Forall₂ (fun w v => v < 2 ^ w) ws vs →
      decodeLE ws (packLE ws vs) = vs := by
  intro ws vs h
  induction h with
  | nil => rfl
  | @cons w v ws vs hwv htl ih =>
    have hpos : 0 < 2 ^ w := Nat.pos_pow_of_pos _ (by decide)
    simp only [packLE, decodeLE, Nat.one_shiftLeft, Nat.and_pow_two_sub_one_eq_mod,
      Nat.shiftRight_eq_div_pow]
    rw [Nat.add_mul_mod_self_left, Nat.mod_eq_of_lt hwv,
      Nat.add_mul_div_left _ _ hpos, Nat.div_eq_of_lt hwv, Nat.zero_add, ih]

theorem fromIntData_eq_decode (a : List BitField) :
    ∀ e : Nat, fromIntData a e = decodeLE (a.map (fun b => b.max_bits)) e := by
  induction a with
  | nil => intro e; rfl
  | cons b bs ih => intro e; simp [fromIntData, decodeLE, ih]

theorem mk_map_max_bits : ∀ ws : List Nat,
    (mk ws).map (fun b => b.max_bits) = ws := by
  intro ws
  induction ws with
  | nil => rfl
  | cons w tl ih => simp [mk_cons, ih]

theorem to_list_filled :
    ∀ ws vs : List Nat, ws.length = vs.length →
      to_list (filled ws vs) = vs.map some := by
  intro ws
  induction ws with
  | nil => intro vs h; cases vs with
    | nil => rfl
    | cons v tl => exact absurd h (by simp)
  | cons w ws ih =>
    intro vs h
    cases vs with
    | nil => exact absurd h (by simp)
    | cons v tl =>
      have hstep : to_list (filled (w :: ws) (v :: tl)) =
          some v :: to_list (filled ws tl) := rfl
      rw [hstep, ih tl (by simpa using h)]
      rfl

theorem round_core {ws vs : List Nat}
    (h : List.Forall₂ (fun w v => v < 2 ^ w) ws vs) :
    to_list (from_int (mk ws) (exportInt (assignList (mk ws) vs))) =
      vs.map some := by
  rw [assignList_mk_eq_filled h, exportInt_filled h, from_int,
    fromIntData_eq_decode, mk_map_max_bits, decodeLE_pack h,
    assignList_mk_eq_filled h, to_list_filled _ _ h.length_eq]

/-- C2: for equal-length width and value lists with every width positive
and every value in range, bulk-assigning the values, exporting, and
decoding the exported integer into a fresh array of the same widths
reproduces the values exactly. -/
theorem C2_int_round_trip (ws vs : List Nat)
    (h : List.Forall₂ (fun w v => 0 < w ∧ v < 2 ^ w) ws vs) :
    to_list (from_int (mk ws) (exportInt (assignList (mk ws) vs))) =
      vs.map some :=
  round_core (h.imp fun _ _ hab => hab.2)

theorem C2_int_round_trip_witness :
    to_list (from_int (mk [3, 7]) (exportInt (assignList (mk [3, 7]) [5, 6]))) =
      [5, 6].map some :=
  C2_int_round_trip [3, 7] [5, 6]
    (.cons (by decide) (.cons (by decide) .nil))

/-! ### Byte conversion -/

theorem bitLenAux_lt (fuel : Nat) :
    ∀ n : Nat, n ≤ fuel → n < 2 ^ bitLenAux fuel n := by
  induction fuel with
  | zero =>
    intro n hn
    have : n = 0 := Nat.le_zero.mp hn
    simp [this, bitLenAux]
  | succ fuel ih =>
    intro n hn
    by_cases h0 : n = 0
    · simp [h0, bitLenAux]
    · have hstep : bitLenAux (fuel + 1) n = bitLenAux fuel (n / 2) + 1 := by
        simp [bitLenAux, h0]
      have hhalf : n / 2 ≤ fuel := by omega
      have := ih (n / 2) hhalf
      rw [hstep, pow_succ]
      omega

theorem lt_two_pow_bit_length (n : Nat) : n < 2 ^ bit_length n :=
  bitLenAux_lt n n (Nat.le_refl n)

theorem bit_length_zero : bit_length 0 = 0 :=
  rfl

theorem bitLenAux_zero (fuel : Nat) : bitLenAux fuel 0 = 0 := by
  cases fuel with
  | zero => rfl
  | succ fuel => simp [bitLenAux]

theorem bitLenAux_le_two_pow (fuel : Nat) :
    ∀ n : Nat, n ≤ fuel → n ≠ 0 → 2 ^ (bitLenAux fuel n - 1) ≤ n := by
  induction fuel with
  | zero => intro n hn h0; omega
  | succ fuel ih =>
    intro n hn h0
    have hstep : bitLenAux (fuel + 1) n = bitLenAux fuel (n / 2) + 1 := by
      simp [bitLenAux, h0]
    rw [hstep]
    by_cases hh : n / 2 = 0
    · simp [hh, bitLenAux_zero]
      omega
    · have hhalf : n / 2 ≤ fuel := by omega
      have hlow := ih (n / 2) hhalf hh
      have hpos : 1 ≤ bitLenAux fuel (n / 2) := by
        cases fuel with
        | zero => omega
        | succ fuel2 => rw [show bitLenAux (fuel2 + 1) (n / 2) =
            bitLenAux fuel2 (n / 2 / 2) + 1 by simp [bitLenAux, hh]]; omega
      have h2 : 2 ^ (bitLenAux fuel (n / 2) - 1 + 1) ≤ n := by
        rw [pow_succ]
        omega
      have heq : bitLenAux fuel (n / 2) - 1 + 1 = bitLenAux fuel (n / 2) := by omega
      rw [heq] at h2
      simpa using h2

theorem two_pow_bit_length_le {n : Nat} (h0 : n ≠ 0) :
    2 ^ (bit_length n - 1) ≤ n :=
  bitLenAux_le_two_pow n n (Nat.le_refl n) h0

theorem lt_256_pow_byte_len (e : Nat) :
    e < 256 ^ ((bit_length e + 7) / 8) := by
  have h1 : e < 2 ^ bit_length e := lt_two_pow_bit_length e
  have h2 : bit_length e ≤ 8 * ((bit_length e + 7) / 8) := by omega
  calc e < 2 ^ bit_length e := h1
  _ ≤ 2 ^ (8 * ((bit_length e + 7) / 8)) := Nat.pow_le_pow_right (by decide) h2
  _ = 256 ^ ((bit_length e + 7) / 8) := by rw [pow_mul]; norm_num

theorem toBytesLE_length : ∀ (len v : Nat), (toBytesLE v len).length = len := by
  intro len
  induction len with
  | zero => intro v; rfl
  | succ len ih => intro v; simp [toBytesLE, ih]

theorem fromBytesLE_toBytesLE :
    ∀ len v : Nat, v < 256 ^ len → fromBytesLE (toBytesLE v len) = v := by
  intro len
  induction len with
  | zero =>
    intro v hv
    have : v = 0 := by simpa using hv
    simp [this, toBytesLE, fromBytesLE]
  | succ len ih =>
    intro v hv
    have hdiv : v / 256 < 256 ^ len := by
      rw [Nat.div_lt_iff_lt_mul (by decide)]
      calc v < 256 ^ (len + 1) := hv
      _ = 256 ^ len * 256 := by rw [pow_succ]
    simp only [toBytesLE, fromBytesLE, ih (v / 256) hdiv]
    exact Nat.mod_add_div v 256

theorem export_as_bytes_eq (a : List BitField) (order : ByteOrder) :
    export_as_bytes a order = some (match order with
      | ByteOrder.little =>
        toBytesLE (exportInt a) ((bit_length (exportInt a) + 7) / 8)
      | ByteOrder.big =>
        (toBytesLE (exportInt a) ((bit_length (exportInt a) + 7) / 8)).reverse) := by
  simp only [export_as_bytes, to_bytes, if_pos (lt_256_pow_byte_len (exportInt a))]

/-! ### C5: byte export of zero is the empty byte string -/

/-- C5 (counterexample): the one-slot array with nothing assigned exports
`0`, and `export_as_bytes` on it returns a byte string of length 0 — not
a single zero byte — for both byte orders, because
`(0).to_bytes((0 + 7) // 8, order)` asks for zero bytes. -/
theorem C5_counterexample :
    exportInt (mk [3]) = 0 ∧
    (export_as_bytes (mk [3]) ByteOrder.little).map List.length ≠ some 1 ∧
    (export_as_bytes (mk [3]) ByteOrder.big).map List.length ≠ some 1 ∧
    export_as_bytes (mk [3]) ByteOrder.little = some [] := by
  decide

/-- C5 (amended): `export_as_bytes(order)` always succeeds and returns
exactly `(bit_length(export()) + 7) / 8` bytes, for both orders: for a
nonzero packed value that is `ceil(bit_length / 8)` bytes, and for a
packed value of exactly 0 it is the empty byte string (length 0, not a
single zero byte). -/
theorem C5_bytes_length (a : List BitField) (order : ByteOrder) :
    ∃ bs : List Nat, export_as_bytes a order = some bs ∧
      bs.length = (bit_length (exportInt a) + 7) / 8 := by
  refine ⟨_, export_as_bytes_eq a order, ?_⟩
  cases order with
  | little => simp [toBytesLE_length]
  | big => simp [toBytesLE_length]

/-! ### C8: byte round trip -/

theorem intFromBytes_export {a : List BitField} {order : ByteOrder} {bs : List Nat}
    (h : export_as_bytes a order = some bs) :
    intFromBytes bs order = exportInt a := by
  rw [export_as_bytes_eq] at h
  cases order with
  | little =>
    cases h
    exact fromBytesLE_toBytesLE _ _ (lt_256_pow_byte_len _)
  | big =>
    cases h
    simp only [intFromBytes, List.reverse_reverse]
    exact fromBytesLE_toBytesLE _ _ (lt_256_pow_byte_len _)

/-- C8: for equal-length width and value lists with every width positive
and every value in range, exporting the assigned array as bytes and
feeding those bytes to `from_bytes` on a fresh array of the same widths
reproduces the values exactly, for both byte orders. -/
theorem C8_byte_round_trip (ws vs : List Nat) (order : ByteOrder)
    (h : List.Forall₂ (fun w v => 0 < w ∧ v < 2 ^ w) ws vs) :
    ∃ bs : List Nat,
      export_as_bytes (assignList (mk ws) vs) order = some bs ∧
      to_list (from_bytes (mk ws) bs order) = vs.map some := by
  refine ⟨_, export_as_bytes_eq _ order, ?_⟩
  rw [from_bytes, intFromBytes_export (export_as_bytes_eq _ order)]
  exact round_core (h.imp fun _ _ hab => hab.2)

theorem C8_byte_round_trip_witness :
    ∃ bs : List Nat,
      export_as_bytes (assignList (mk [3, 7]) [5, 6]) ByteOrder.big = some bs ∧
      to_list (from_bytes (mk [3, 7]) bs ByteOrder.big) = [5, 6].map some :=
  C8_byte_round_trip [3, 7] [5, 6] ByteOrder.big
    (.cons (by decide) (.cons (by decide) .nil))

/-! ### C9: masked assignment and the width invariant -/

theorem invariantHolds_mk (ws : List Nat) : invariantHolds (mk ws) := by
  intro b hb v hv
  rcases List.mem_map.mp hb with ⟨w, hw, rfl⟩
  exact Option.noConfusion hv

theorem invariantHolds_cons {b : BitField} {bs : List BitField}
    (hb : ∀ v, b.value = some v → v < 2 ^ b.max_bits)
    (hbs : invariantHolds bs) : invariantHolds (b :: bs) := by
  intro x hx v hv
  rcases List.mem_cons.mp hx with rfl | hx2
  · exact hb v hv
  · exact hbs x hx2 v hv

theorem invariantHolds_of_cons {b : BitField} {bs : List BitField}
    (h : invariantHolds (b :: bs)) : invariantHolds bs :=
  fun x hx => h x (List.mem_cons_of_mem b hx)

theorem invariantHolds_assign (b : BitField) (v : Nat) :
    ∀ v2, (b.assign v).value = some v2 → v2 < 2 ^ (b.assign v).max_bits := by
  intro v2 hv2
  have : v2 = BitField.mask v b.max_bits := by
    simpa [BitField.assign] using hv2.symm
  subst this
  exact mask_lt v b.max_bits

theorem invariantHolds_assignScalar (a : List BitField) :
    ∀ v : Nat, invariantHolds a → invariantHolds (assignScalar a v) := by
  induction a with
  | nil => intro v h; exact h
  | cons b bs ih =>
    intro v h
    cases hb : b.is_null with
    | true =>
      simp only [assignScalar, hb, if_true]
      exact invariantHolds_cons (invariantHolds_assign b v)
        (invariantHolds_of_cons h)
    | false =>
      simp only [assignScalar, hb, Bool.false_eq_true, if_false]
      exact invariantHolds_cons
        (fun v2 hv2 => h b (List.mem_cons_self b bs) v2 hv2)
        (ih v (invariantHolds_of_cons h))

theorem invariantHolds_assignList (a : List BitField) :
    ∀ vs : List Nat, invariantHolds a → invariantHolds (assignList a vs) := by
  induction a with
  | nil => intro vs h; exact h
  | cons b bs ih =>
    intro vs h
    cases hb : b.is_null with
    | true =>
      cases vs with
      | nil => simpa [assignList, hb] using h
      | cons v tl =>
        simp only [assignList, hb, if_true]
        exact invariantHolds_cons (invariantHolds_assign b v)
          (ih tl (invariantHolds_of_cons h))
    | false =>
      simp only [assignList, hb, Bool.false_eq_true, if_false]
      exact invariantHolds_cons
        (fun v2 hv2 => h b (List.mem_cons_self b bs) v2 hv2)
        (ih vs (invariantHolds_of_cons h))

theorem invariantHolds_applyOp (a : List BitField) (op : Op)
    (h : invariantHolds a) : invariantHolds (applyOp a op) := by
  cases op with
  | assignOne v => exact invariantHolds_assignScalar a v h
  | assignMany vs => exact invariantHolds_assignList a vs h
  | fromIntOp v => exact invariantHolds_assignList a _ h
  | fromBytesOp bs o => exact invariantHolds_assignList a _ h
  | deleteOp i =>
    simp only [applyOp, delete]
    by_cases hc : 0 ≤ (if i < 0 then i + (a.length : Int) else i) ∧
        (if i < 0 then i + (a.length : Int) else i) < (a.length : Int)
    · simp only [if_pos hc, Option.getD_some]
      intro x hx
      exact h x (List.mem_of_mem_eraseIdx hx)
    · simpa only [if_neg hc, Option.getD_none] using h

theorem invariantHolds_foldl (ops : List Op) :
    ∀ a : List BitField, invariantHolds a →
      invariantHolds (List.foldl applyOp a ops) := by
  induction ops with
  | nil => intro a h; exact h
  | cons op ops ih =>
    intro a h
    exact ih (applyOp a op) (invariantHolds_applyOp a op h)

/-- C9: for a slot of positive width `w`, `assign` is total, overwrites
any prior value, and stores exactly `v &&& ((1 <<< w) - 1)` without
changing the width; consequently, starting from a freshly constructed
array, after any sequence of array operations every non-empty slot holds
a value below `2 ^ max_bits`. -/
theorem C9_assign_mask_invariant (w : Nat) (hw : 0 < w) :
    (∀ (b : BitField) (v : Nat), b.max_bits = w →
      (b.assign v).value = some (v &&& ((1 <<< w) - 1)) ∧
      (b.assign v).max_bits = w) ∧
    (∀ (ws : List Nat) (ops : List Op),
      invariantHolds (List.foldl applyOp (mk ws) ops)) := by
  refine ⟨fun b v hb => ?_, fun ws ops => invariantHolds_foldl ops _ (invariantHolds_mk ws)⟩
  subst hb
  exact ⟨rfl, rfl⟩

theorem C9_assign_mask_invariant_witness :
    ((({ value := some 2, max_bits := 3 } : BitField).assign 11).value =
        some (11 &&& ((1 <<< 3) - 1)) ∧
      (({ value := some 2, max_bits := 3 } : BitField).assign 11).max_bits = 3) ∧
    invariantHolds (List.foldl applyOp (mk [3, 7]) [Op.assignOne 11]) :=
  ⟨(C9_assign_mask_invariant 3 (by decide)).1 _ 11 rfl,
    (C9_assign_mask_invariant 3 (by decide)).2 [3, 7] [Op.assignOne 11]⟩

end BFA
